import Mathlib

/-!
Shallow embedding of `src/main.rs` of git-fixup-menu: an interactive,
scroll-aware commit picker.  Rust strings are modelled as Lean `String`
(a wrapper around `List Char`); the commit ids handled here are ASCII hex
strings, so char indices coincide with Rust's byte indices on the parts the
program slices.  The git revwalk, the terminal and the `git commit --fixup`
subprocess are external collaborators; they enter the model as explicit
data (a list of pending source entries, a row budget, an event list, a
success flag).  All state mutation of `run_menu` is modelled as explicit
state passing over `MenuState`.
-/

/-- One entry of the external commit source (the revwalk).  `none` stands
for an entry dropped by the `filter_map` in `fetch_more` (revwalk error,
missing commit, or missing summary); `some (oid, summary)` is a commit the
walk yields, with its full hex id and its one-line summary. -/
abbrev SourceEntry := Option (String × String)

/-- The `format!("{} {}", &oid.to_string()[..7], summary)` of `fetch_more`:
the first 7 characters of the hex id, a space, then the summary. -/
def formatCommit (oid summary : String) : String :=
  String.mk (oid.data.take 7 ++ ' ' :: summary.data)

/-- The strings appended by one call of `fetch_more`: take `n` entries from
the revwalk, keep those the `filter_map` accepts, format each. -/
def fetchNew (entries : List SourceEntry) : List String :=
  entries.filterMap (fun e => e.map (fun p => formatCommit p.1 p.2))

/-- Per-item display height used by `collect_visible` (src/main.rs lines
38-42): `1 + if expanded.contains(&idx) { bodies.get(&idx).map_or(0, |b| b.len()) } else { 0 }`.
The `HashSet` is modelled as a duplicate-free list, the `HashMap` as an
association list read through `List.lookup`. -/
def itemHeight (expanded : List Nat) (bodies : List (Nat × List String)) (idx : Nat) : Nat :=
  1 + (if expanded.contains idx then ((bodies.lookup idx).map List.length).getD 0 else 0)

/-- The loop body of `collect_visible`: walk indices upward from `idx`,
keeping the running line count in `lines`; stop as soon as the next item
would overflow `limit`.  `fuel` is the number of indices still below
`commits.len()`, so the recursion is structural. -/
def collectVisibleGo (heightOf : Nat → Nat) (limit : Nat) : Nat → Nat → Nat → List Nat
  | 0, _, _ => []
  | fuel + 1, idx, lines =>
    let h := heightOf idx
    if limit < lines + h then []
    else idx :: collectVisibleGo heightOf limit fuel (idx + 1) (lines + h)

/-- The function `collect_visible` (src/main.rs lines 28-50): the indices of commits
that fit within `limit` display lines starting at `scroll`. -/
def collect_visible (commits : List String) (expanded : List Nat)
    (bodies : List (Nat × List String)) (scroll limit : Nat) : List Nat :=
  collectVisibleGo (itemHeight expanded bodies) limit (commits.length - scroll) scroll 0

/-- The per-frame viewport data computed at the top of the menu loop
(src/main.rs lines 88-106). -/
structure Frame where
  hasMoreAbove : Bool
  baseSlots : Nat
  visAll : List Nat
  vis : List Nat
  hasMoreBelow : Bool
  deriving DecidableEq, Repr

/-- The frame computation of the menu loop: `visible_count` is
`rows.saturating_sub(2)` and is passed in as `V`; `base_slots`
reserves one row for the "more above" indicator when `scroll > 0`; the
second fitting pass with `base_slots - 1` runs exactly when the item after
the first pass's last element still exists. -/
def computeFrame (commits : List String) (expanded : List Nat)
    (bodies : List (Nat × List String)) (scroll V : Nat) : Frame :=
  let hasMoreAbove : Bool := decide (0 < scroll)
  let baseSlots := V - (if hasMoreAbove then 1 else 0)
  let visAll := collect_visible commits expanded bodies scroll baseSlots
  if ((visAll.getLast?.map (fun i => decide (i + 1 < commits.length))).getD false) then
    ⟨hasMoreAbove, baseSlots, visAll,
      collect_visible commits expanded bodies scroll (baseSlots - 1), true⟩
  else
    ⟨hasMoreAbove, baseSlots, visAll, visAll, false⟩

/-- The mutable state of `run_menu`, together with the pending portion of
the revwalk (the external commit source). -/
structure MenuState where
  commits : List String
  source : List SourceEntry
  selected : Nat
  scroll : Nat
  expanded : List Nat
  bodies : List (Nat × List String)
  deriving DecidableEq, Repr

/-- The function `fetch_more` (src/main.rs lines 13-25) as a state step: consume `n`
revwalk entries and append the surviving formatted commits. -/
def fetch_more (n : Nat) (st : MenuState) : MenuState :=
  { st with
    commits := st.commits ++ fetchNew (st.source.take n)
    source := st.source.drop n }

def frameOf (V : Nat) (st : MenuState) : Frame :=
  computeFrame st.commits st.expanded st.bodies st.scroll V

/-- The `MenuEvent::Move(delta)` handler (src/main.rs lines 207-222).
`fr` is the frame computed for the frame just rendered; `vis_commits`
is `fr.vis` and `has_more_above` is `fr.hasMoreAbove`.  The scroll
bump re-checks `scroll > 0` after the first increment, exactly as the
source does. -/
def moveStep (V : Nat) (d : Int) (st : MenuState) : MenuState :=
  let fr := frameOf V st
  let next : Int := (st.selected : Int) + d
  if 0 ≤ next ∧ next < (st.commits.length : Int) then
    let sel := next.toNat
    let scr :=
      if sel < st.scroll then sel
      else if !(fr.vis.contains sel) then
        let s := st.scroll + 1
        if !fr.hasMoreAbove && decide (0 < s) then s + 1 else s
      else st.scroll
    let st' := { st with selected := sel, scroll := scr }
    if st'.commits.length ≤ sel + V then fetch_more V st' else st'
  else st

/-- Rust `String::lines` piece splitting: split on `'\n'`, keeping the
piece accumulated so far when the input ends. -/
def splitNlGo : List Char → List Char → List (List Char)
  | [], acc => [acc.reverse]
  | c :: rest, acc =>
    if c = '\n' then acc.reverse :: splitNlGo rest []
    else splitNlGo rest (c :: acc)

/-- Strip one trailing `'\r'`, as Rust's `lines` does on every piece that
was terminated by a `'\n'`. -/
def stripCR (l : List Char) : List Char :=
  if l.getLast? = some '\r' then l.dropLast else l

/-- Rust `str::lines`: pieces split on `'\n'`; every piece that was
followed by a `'\n'` loses one trailing `'\r'`; a final empty piece (the
string ended in `'\n'`, or the string was empty) yields no line. -/
def rustLines (s : String) : List String :=
  let ps := splitNlGo s.data []
  let terminated := ps.dropLast.map (fun l => String.mk (stripCR l))
  match ps.getLast? with
  | some [] => terminated
  | some l => terminated ++ [String.mk l]
  | none => terminated

/-- Rust `char::is_whitespace`, i.e. the Unicode White_Space property
(as used by `str::trim`): U+0009..U+000D, U+0020, U+0085, U+00A0,
U+1680, U+2000..U+200A, U+2028, U+2029, U+202F, U+205F, U+3000. -/
def rustIsWhitespace (c : Char) : Bool :=
  (decide (0x09 ≤ c.toNat) && decide (c.toNat ≤ 0x0D))
    || c.toNat == 0x20 || c.toNat == 0x85 || c.toNat == 0xA0
    || c.toNat == 0x1680
    || (decide (0x2000 ≤ c.toNat) && decide (c.toNat ≤ 0x200A))
    || c.toNat == 0x2028 || c.toNat == 0x2029 || c.toNat == 0x202F
    || c.toNat == 0x205F || c.toNat == 0x3000

/-- Rust `l.trim().is_empty()`: every char of the line has the Unicode
White_Space property. -/
def isBlank (s : String) : Bool := s.data.all rustIsWhitespace

/-- The body derivation of the `MenuEvent::Expand` handler (src/main.rs
lines 230-240): drop the summary line, drop leading blank lines, and fall
back to the `"(no description)"` sentinel when nothing remains. -/
def deriveBody (msg : String) : List String :=
  let body := ((rustLines msg).drop 1).dropWhile isBlank
  if body.isEmpty then ["(no description)"] else body

/-- The slice `&commits[selected][..7]`: the 7-character id the Expand and Confirm
paths slice out of a stored commit line. -/
def shaOf (st : MenuState) : String :=
  String.mk ((st.commits.getD st.selected "").data.take 7)

/-- The `HashSet::insert` operation on the duplicate-free list model. -/
def insertNat (i : Nat) (l : List Nat) : List Nat :=
  if l.contains i then l else i :: l

/-- The `MenuEvent::Expand` handler (src/main.rs lines 224-246).
`fetchMsg` models `repo.revparse_single(sha)` + `peel_to_commit` +
`message()`: `none` when either git call fails (then no body is cached but
the index is still marked expanded), `some msg` on success. -/
def expandStep (fetchMsg : String → Option String) (st : MenuState) : MenuState :=
  if (st.bodies.lookup st.selected).isSome then
    { st with expanded := insertNat st.selected st.expanded }
  else
    match fetchMsg (shaOf st) with
    | some msg =>
      { st with
        bodies := (st.selected, deriveBody msg) :: st.bodies
        expanded := insertNat st.selected st.expanded }
    | none => { st with expanded := insertNat st.selected st.expanded }

/-- The `MenuEvent::Collapse` handler (src/main.rs lines 247-249):
`expanded.remove(&selected)`. -/
def collapseStep (st : MenuState) : MenuState :=
  { st with expanded := st.expanded.filter (fun j => decide (j ≠ st.selected)) }

/-- The spec's `ExpansionStore.toggle` realised from the two source
handlers: collapse when the index is in the expanded set, expand
otherwise.  The `Bool` records whether the expand path reached the git
fetch, i.e. whether the cache-presence guard found the key absent. -/
def toggleStep (fetchMsg : String → Option String) (st : MenuState) : MenuState × Bool :=
  if st.expanded.contains st.selected then (collapseStep st, false)
  else (expandStep fetchMsg st, (st.bodies.lookup st.selected).isNone)

/-- Abstract navigation intents produced by `read_menu_event`. -/
inductive MenuEvent where
  | move (d : Int)
  | expand
  | collapse
  | confirm
  | quit
  deriving DecidableEq, Repr

/-- One non-terminating iteration of the event match in `run_menu`. -/
def menuStep (V : Nat) (fetchMsg : String → Option String) :
    MenuEvent → MenuState → MenuState
  | .move d, st => moveStep V d st
  | .expand, st => expandStep fetchMsg st
  | .collapse, st => collapseStep st
  | .confirm, st => st
  | .quit, st => st

/-- The `run_menu` loop driven by a list of key events.  The first
component is `none` while the loop is still blocked waiting for input,
`some (some i)` when it broke with `Confirm` at selection `i`, and
`some none` when it broke with `Quit`.  The second component is the final
state (in the source, `commits` is mutated through the `&mut` borrow and
survives the call). -/
def runMenu (V : Nat) (fetchMsg : String → Option String) :
    List MenuEvent → MenuState → Option (Option Nat) × MenuState
  | [], st => (none, st)
  | e :: es, st =>
    match e with
    | .confirm => (some (some st.selected), st)
    | .quit => (some none, st)
    | _ => runMenu V fetchMsg es (menuStep V fetchMsg e st)

/-- The function `create_fixup_commit` (src/main.rs lines 261-271): on subprocess
failure print a message to stderr and exit with status 1.  Returned as
(exit status, stderr message). -/
def create_fixup_commit (success : Bool) : Nat × Option String :=
  if success then (0, none) else (1, some "git commit --fixup failed")

/-- Observable outcome of `main` after the menu loop ends. -/
structure ActionResult where
  invoked : Option String
  exitCode : Nat
  message : Option String
  deriving DecidableEq, Repr

/-- The tail of `main` (src/main.rs lines 296-299): on a confirmed index,
slice the stored line's first 7 characters and hand them to
`create_fixup_commit`; on no selection, do nothing. -/
def mainFinish (commits : List String) (menuResult : Option Nat) (gitOk : Bool) : ActionResult :=
  match menuResult with
  | some index =>
    let sha := String.mk ((commits.getD index "").data.take 7)
    { invoked := some sha
      exitCode := (create_fixup_commit gitOk).1
      message := (create_fixup_commit gitOk).2 }
  | none => { invoked := none, exitCode := 0, message := none }

/-- Cumulative height of the `k` consecutive items starting at index `s`. -/
def heightSum (heightOf : Nat → Nat) (s k : Nat) : Nat :=
  ((List.range' s k).map heightOf).sum

/-- Decidable well-formedness of the pending source: every surviving entry
carries a hex id of at least 7 ASCII characters.  (git object ids are 40
ASCII hex characters.) -/
def sourceOk (src : List SourceEntry) : Bool :=
  src.all fun e =>
    match e with
    | none => true
    | some p => decide (7 ≤ p.1.data.length) && p.1.data.all (fun c => decide (c.toNat < 128))

/-- The shape every stored commit line has: at least 8 characters, a space
at index 7, and an ASCII 7-character id before it — exactly what makes the
byte slices `[..7]` and `[8..]` in the renderer and the confirm/expand
paths in-bounds and on character boundaries. -/
def goodCommit (s : String) : Bool :=
  decide (8 ≤ s.data.length) && (s.data[7]? == some ' ')
    && (s.data.take 7).all (fun c => decide (c.toNat < 128))

/-! ## Basic facts about `heightSum` and `collect_visible` -/

theorem heightSum_zero (h : Nat → Nat) (s : Nat) : heightSum h s 0 = 0 := rfl

theorem heightSum_one (h : Nat → Nat) (s : Nat) : heightSum h s 1 = h s := by
  simp [heightSum]

theorem heightSum_succ (h : Nat → Nat) (s k : Nat) :
    heightSum h s (k + 1) = h s + heightSum h (s + 1) k := by
  simp [heightSum, List.range'_succ]

theorem heightSum_succ_right (h : Nat → Nat) (s k : Nat) :
    heightSum h s (k + 1) = heightSum h s k + h (s + k) := by
  induction k generalizing s with
  | zero => simp [heightSum_one, heightSum_zero, heightSum_succ]
  | succ k ih =>
    rw [heightSum_succ, ih (s + 1), heightSum_succ]
    have hs : s + 1 + k = s + (k + 1) := by omega
    rw [hs, Nat.add_assoc]

theorem heightSum_mono (h : Nat → Nat) (s : Nat) {j k : Nat} (hjk : j ≤ k) :
    heightSum h s j ≤ heightSum h s k := by
  induction k with
  | zero => simp_all
  | succ k ih =>
    rcases Nat.lt_or_ge j (k + 1) with hlt | hge
    · exact le_trans (ih (by omega)) (by rw [heightSum_succ_right]; omega)
    · have : j = k + 1 := by omega
      subst this; exact le_refl _

theorem le_heightSum (h : Nat → Nat) (hh : ∀ i, 1 ≤ h i) (s k : Nat) :
    k ≤ heightSum h s k := by
  induction k with
  | zero => simp [heightSum_zero]
  | succ k ih =>
    rw [heightSum_succ_right]
    have := hh (s + k)
    omega

theorem itemHeight_pos (e : List Nat) (b : List (Nat × List String)) (i : Nat) :
    1 ≤ itemHeight e b i := Nat.le_add_right 1 _

/-- The walk of `collect_visible` returns a run of consecutive indices: it
is `range' idx k` for the greedy `k`, which exhausts the fuel or stops
exactly when one more item would overflow the limit. -/
theorem collectVisibleGo_spec (h : Nat → Nat) (limit : Nat) :
    ∀ fuel idx lines, lines ≤ limit →
      ∃ k, collectVisibleGo h limit fuel idx lines = List.range' idx k
        ∧ k ≤ fuel
        ∧ lines + heightSum h idx k ≤ limit
        ∧ (k < fuel → limit < lines + heightSum h idx (k + 1)) := by
  intro fuel
  induction fuel with
  | zero =>
    intro idx lines hl
    exact ⟨0, rfl, Nat.le_refl 0, by simpa [heightSum_zero], by omega⟩
  | succ fuel ih =>
    intro idx lines hl
    by_cases hov : limit < lines + h idx
    · refine ⟨0, ?_, by omega, by simpa [heightSum_zero], ?_⟩
      · simp [collectVisibleGo, hov]
      · intro _
        rw [heightSum_one]
        omega
    · push_neg at hov
      obtain ⟨k, hk1, hk2, hk3, hk4⟩ := ih (idx + 1) (lines + h idx) hov
      refine ⟨k + 1, ?_, by omega, ?_, ?_⟩
      · simp only [collectVisibleGo]
        rw [if_neg (by omega), hk1, List.range'_succ]
      · rw [heightSum_succ]
        omega
      · intro hlt
        have := hk4 (by omega)
        rw [heightSum_succ]
        omega

/-- Characterisation of `collect_visible`: the result is `range' scroll k`
where `k` stays within the item count, the cumulative heights fit the
limit, and `k` is maximal with that property. -/
theorem collect_visible_char (c : List String) (e : List Nat)
    (b : List (Nat × List String)) (s l : Nat) :
    ∃ k, collect_visible c e b s l = List.range' s k
      ∧ k ≤ c.length - s
      ∧ heightSum (itemHeight e b) s k ≤ l
      ∧ (∀ j, j ≤ c.length - s → heightSum (itemHeight e b) s j ≤ l → j ≤ k) := by
  obtain ⟨k, h1, h2, h3, h4⟩ :=
    collectVisibleGo_spec (itemHeight e b) l (c.length - s) s 0 (Nat.zero_le l)
  refine ⟨k, h1, h2, by simpa using h3, ?_⟩
  intro j hj hsum
  by_contra hgt
  push_neg at hgt
  have hk : k < c.length - s := by omega
  have := h4 hk
  have hmono : heightSum (itemHeight e b) s (k + 1) ≤ heightSum (itemHeight e b) s j :=
    heightSum_mono _ _ (by omega)
  omega

/-- When nothing is expanded every item has height 1 and the walk fills
the budget exactly. -/
theorem collectVisibleGo_ones (h : Nat → Nat) (hh : ∀ i, h i = 1) (limit : Nat) :
    ∀ fuel idx lines,
      collectVisibleGo h limit fuel idx lines = List.range' idx (min (limit - lines) fuel) := by
  intro fuel
  induction fuel with
  | zero => intro idx lines; simp [collectVisibleGo]
  | succ fuel ih =>
    intro idx lines
    by_cases hov : limit < lines + h idx
    · have h0 : limit - lines = 0 := by rw [hh idx] at hov; omega
      simp [collectVisibleGo, hov, h0]
    · have h1 : 1 ≤ limit - lines := by rw [hh idx] at hov; omega
      simp only [collectVisibleGo]
      rw [if_neg hov, ih (idx + 1) (lines + h idx), hh idx]
      have hrw : limit - lines = (limit - (lines + 1)) + 1 := by omega
      rw [hrw, Nat.succ_min_succ, List.range'_succ]

theorem itemHeight_ones (b : List (Nat × List String)) (i : Nat) :
    itemHeight [] b i = 1 := by
  simp [itemHeight]

theorem collect_visible_ones (c : List String) (b : List (Nat × List String)) (s l : Nat) :
    collect_visible c [] b s l = List.range' s (min l (c.length - s)) := by
  simp [collect_visible, collectVisibleGo_ones _ (itemHeight_ones b) l]

theorem getLast?_range' : ∀ (n s : Nat), 0 < n →
    (List.range' s n).getLast? = some (s + n - 1) := by
  intro n
  induction n with
  | zero => intro s h; exact absurd h (lt_irrefl 0)
  | succ n ih =>
    intro s _
    rw [List.range'_succ]
    cases n with
    | zero => simp
    | succ m =>
      rw [List.range'_succ, List.getLast?_cons_cons, ← List.range'_succ,
        ih (s + 1) (Nat.succ_pos m)]
      congr 1
      omega

/-- C4: for every item list, expansion state, body cache, scroll index and
row limit, `collect_visible` returns a contiguous run of consecutive
indices starting exactly at `scroll`; that run is the maximal prefix of
the remaining indices whose cumulative per-item heights fit within the
limit, all its indices are in bounds, and its size is at most the limit. -/
theorem c4_collect_visible_correct (c : List String) (e : List Nat)
    (b : List (Nat × List String)) (scroll limit : Nat) :
    ∃ k, collect_visible c e b scroll limit = List.range' scroll k
      ∧ heightSum (itemHeight e b) scroll k ≤ limit
      ∧ (∀ j, scroll + j ≤ c.length → heightSum (itemHeight e b) scroll j ≤ limit → j ≤ k)
      ∧ (∀ i ∈ collect_visible c e b scroll limit, i < c.length)
      ∧ (collect_visible c e b scroll limit).length ≤ limit := by
  obtain ⟨k, h1, h2, h3, h4⟩ := collect_visible_char c e b scroll limit
  refine ⟨k, h1, h3, ?_, ?_, ?_⟩
  · intro j hj hsum
    exact h4 j (by omega) hsum
  · intro i hi
    rw [h1] at hi
    have := List.mem_range'_1.mp hi
    omega
  · rw [h1, List.length_range']
    exact le_trans (le_heightSum _ (itemHeight_pos e b) scroll k) h3

/-- Witness for C4 at a concrete input: on five plain items with limit 3
the visible set is a run starting at 0 of length at least 2 (instantiating
the maximality clause at `j = 2`). -/
theorem c4_collect_visible_correct_witness :
    ∃ k, collect_visible ["aaaaaaa a", "bbbbbbb b", "ccccccc c", "ddddddd d", "eeeeeee e"]
        [] [] 0 3 = List.range' 0 k ∧ 2 ≤ k := by
  obtain ⟨k, h1, _, h3, _, _⟩ :=
    c4_collect_visible_correct
      ["aaaaaaa a", "bbbbbbb b", "ccccccc c", "ddddddd d", "eeeeeee e"] [] [] 0 3
  exact ⟨k, h1, h3 2 (by decide) (by decide)⟩

/-! ## Frame-level facts -/

theorem lastTest_eq_true (o : Option Nat) (len : Nat) :
    ((o.map (fun i => decide (i + 1 < len))).getD false = true) ↔
      ∃ i, o = some i ∧ i + 1 < len := by
  cases o <;> simp

/-- Field-level description of `computeFrame`, splitting on whether the
second fitting pass ran. -/
theorem computeFrame_cases (c : List String) (e : List Nat)
    (b : List (Nat × List String)) (scroll V : Nat) :
    (computeFrame c e b scroll V).hasMoreAbove = decide (0 < scroll)
    ∧ (computeFrame c e b scroll V).baseSlots = V - (if 0 < scroll then 1 else 0)
    ∧ (computeFrame c e b scroll V).visAll =
        collect_visible c e b scroll (V - (if 0 < scroll then 1 else 0))
    ∧ (((∃ i, (collect_visible c e b scroll (V - (if 0 < scroll then 1 else 0))).getLast?
            = some i ∧ i + 1 < c.length)
        ∧ (computeFrame c e b scroll V).hasMoreBelow = true
        ∧ (computeFrame c e b scroll V).vis =
            collect_visible c e b scroll (V - (if 0 < scroll then 1 else 0) - 1))
      ∨ ((¬ ∃ i, (collect_visible c e b scroll (V - (if 0 < scroll then 1 else 0))).getLast?
            = some i ∧ i + 1 < c.length)
        ∧ (computeFrame c e b scroll V).hasMoreBelow = false
        ∧ (computeFrame c e b scroll V).vis =
            collect_visible c e b scroll (V - (if 0 < scroll then 1 else 0)))) := by
  have hB : (if (decide (0 < scroll) : Bool) then 1 else 0) = (if 0 < scroll then 1 else 0) := by
    simp
  simp only [computeFrame, hB]
  by_cases hcond :
      ((collect_visible c e b scroll (V - if 0 < scroll then 1 else 0)).getLast?.map
        (fun i => decide (i + 1 < c.length))).getD false = true
  · rw [if_pos hcond]
    exact ⟨rfl, rfl, rfl, Or.inl ⟨(lastTest_eq_true _ _).mp hcond, rfl, rfl⟩⟩
  · rw [if_neg hcond]
    exact ⟨rfl, rfl, rfl, Or.inr ⟨fun he => hcond ((lastTest_eq_true _ _).mpr he), rfl, rfl⟩⟩

/-- C1, counterexample to the final "equivalently" clause: with two plain
items, `scroll = 0` and a row budget of 1, the first pass shows item 0 and
the list continues, so `has_more_below` is set — but the second pass has
budget 0 and the final visible set is empty, so it has no last index and
"`has_more_below` ⇔ final last index + 1 < total" fails. -/
theorem c1_counterexample :
    ¬ (((computeFrame ["aaaaaaa x", "bbbbbbb y"] [] [] 0 1).hasMoreBelow = true) ↔
        ∃ j, (computeFrame ["aaaaaaa x", "bbbbbbb y"] [] [] 0 1).vis.getLast? = some j
          ∧ j + 1 < (["aaaaaaa x", "bbbbbbb y"] : List String).length) := by
  intro h
  obtain ⟨j, hj, _⟩ := h.mp (by decide)
  rw [show (computeFrame ["aaaaaaa x", "bbbbbbb y"] [] [] 0 1).vis = [] from by decide] at hj
  simp at hj

/-- C1 (amended): per frame, `has_more_above` holds iff `scroll > 0`; the
base budget is `row_budget` minus 1 exactly when `scroll > 0`; the second
fitting pass with budget `base_budget - 1` runs iff the index after the
first-pass set's last element is still below the item count, and exactly
then `has_more_below` is true; and whenever the FINAL visible set is
nonempty, `has_more_below` holds iff its last index + 1 is below the item
count (with an empty final set `has_more_below` can still be true, which
is what the counterexample exhibits). -/
theorem c1_frame_indicators (c : List String) (e : List Nat)
    (b : List (Nat × List String)) (scroll V : Nat) :
    ((computeFrame c e b scroll V).hasMoreAbove = true ↔ 0 < scroll)
    ∧ (computeFrame c e b scroll V).baseSlots = V - (if 0 < scroll then 1 else 0)
    ∧ ((computeFrame c e b scroll V).hasMoreBelow = true ↔
        ∃ i, (computeFrame c e b scroll V).visAll.getLast? = some i ∧ i + 1 < c.length)
    ∧ ((computeFrame c e b scroll V).hasMoreBelow = true →
        (computeFrame c e b scroll V).vis =
          collect_visible c e b scroll ((computeFrame c e b scroll V).baseSlots - 1))
    ∧ ((computeFrame c e b scroll V).hasMoreBelow = false →
        (computeFrame c e b scroll V).vis = (computeFrame c e b scroll V).visAll)
    ∧ ((computeFrame c e b scroll V).vis ≠ [] →
        ((computeFrame c e b scroll V).hasMoreBelow = true ↔
          ∃ j, (computeFrame c e b scroll V).vis.getLast? = some j ∧ j + 1 < c.length)) := by
  obtain ⟨hA, hB, hVA, hcase⟩ := computeFrame_cases c e b scroll V
  refine ⟨by rw [hA]; simp, hB, ?_, ?_, ?_, ?_⟩ <;>
    rcases hcase with ⟨hex, hmb, hvis⟩ | ⟨hnex, hmb, hvis⟩
  · rw [hmb, hVA]
    exact iff_of_true rfl hex
  · rw [hmb, hVA]
    exact iff_of_false (by simp) hnex
  · intro _
    rw [hvis, hB]
  · intro h
    rw [hmb] at h
    simp at h
  · intro h
    rw [hmb] at h
    simp at h
  · intro _
    rw [hvis, hVA]
  · intro hne
    rw [hmb]
    constructor
    · intro _
      obtain ⟨k, hk1, hk2, hk3, hk4⟩ :=
        collect_visible_char c e b scroll (V - (if 0 < scroll then 1 else 0))
      obtain ⟨k', hk1', hk2', hk3', _⟩ :=
        collect_visible_char c e b scroll (V - (if 0 < scroll then 1 else 0) - 1)
      obtain ⟨i, hi1, hi2⟩ := hex
      rw [hk1] at hi1
      rcases Nat.eq_zero_or_pos k with hk0 | hkpos
      · rw [hk0] at hi1
        simp at hi1
      rw [getLast?_range' k scroll hkpos] at hi1
      have hik : i = scroll + k - 1 := by
        injection hi1 with hinj
        omega
      rw [hvis, hk1'] at hne ⊢
      have hk'pos : 0 < k' := by
        rcases Nat.eq_zero_or_pos k' with h0 | hpos
        · rw [h0] at hne
          simp at hne
        · exact hpos
      have hk'k : k' ≤ k :=
        hk4 k' hk2' (le_trans hk3' (Nat.sub_le _ _))
      refine ⟨scroll + k' - 1, getLast?_range' k' scroll hk'pos, ?_⟩
      omega
    · intro _
      rfl
  · intro hne
    rw [hmb]
    constructor
    · intro h
      simp at h
    · rintro ⟨j, hj1, hj2⟩
      rw [hvis] at hj1
      exact absurd ⟨j, hj1, hj2⟩ hnex

/-- Witness for C1 (amended) at spec Scenario A (five items, budget 4,
scroll 0): the final visible set is nonempty, so the equivalence clause
applies and is discharged at that input. -/
theorem c1_frame_indicators_witness :
    (computeFrame ["aaaaaaa a", "bbbbbbb b", "ccccccc c", "ddddddd d", "eeeeeee e"]
        [] [] 0 4).hasMoreBelow = true ↔
      ∃ j, (computeFrame ["aaaaaaa a", "bbbbbbb b", "ccccccc c", "ddddddd d", "eeeeeee e"]
        [] [] 0 4).vis.getLast? = some j
        ∧ j + 1 < (["aaaaaaa a", "bbbbbbb b", "ccccccc c", "ddddddd d",
            "eeeeeee e"] : List String).length :=
  (c1_frame_indicators ["aaaaaaa a", "bbbbbbb b", "ccccccc c", "ddddddd d", "eeeeeee e"]
    [] [] 0 4).2.2.2.2.2 (by decide)

/-! ## Move handler -/

theorem moveStep_oob (V : Nat) (d : Int) (st : MenuState)
    (h : ¬ (0 ≤ (st.selected : Int) + d ∧ (st.selected : Int) + d < (st.commits.length : Int))) :
    moveStep V d st = st := by
  simp only [moveStep]
  rw [if_neg h]

theorem moveStep_selected (V : Nat) (d : Int) (st : MenuState)
    (h0 : 0 ≤ (st.selected : Int) + d)
    (h1 : (st.selected : Int) + d < (st.commits.length : Int)) :
    (moveStep V d st).selected = ((st.selected : Int) + d).toNat := by
  simp only [moveStep]
  rw [if_pos ⟨h0, h1⟩]
  split
  · rw [fetch_more]
  · rfl

theorem moveStep_commits_ge (V : Nat) (d : Int) (st : MenuState) :
    st.commits.length ≤ (moveStep V d st).commits.length := by
  simp only [moveStep]
  split
  · split
    · rw [fetch_more]
      simp
    · exact Nat.le_refl _
  · exact Nat.le_refl _

theorem moveStep_scroll (V : Nat) (d : Int) (st : MenuState)
    (h0 : 0 ≤ (st.selected : Int) + d)
    (h1 : (st.selected : Int) + d < (st.commits.length : Int)) :
    (moveStep V d st).scroll =
      (if ((st.selected : Int) + d).toNat < st.scroll then ((st.selected : Int) + d).toNat
       else if !((frameOf V st).vis.contains ((st.selected : Int) + d).toNat) then
         (if st.scroll = 0 then st.scroll + 2 else st.scroll + 1)
       else st.scroll) := by
  have hA : (frameOf V st).hasMoreAbove = decide (0 < st.scroll) :=
    (computeFrame_cases st.commits st.expanded st.bodies st.scroll V).1
  have key : ∀ scr : Nat,
      (if ((st.selected : Int) + d).toNat < scr then ((st.selected : Int) + d).toNat
       else if !((frameOf V st).vis.contains ((st.selected : Int) + d).toNat) then
         (if !(frameOf V st).hasMoreAbove && decide (0 < scr + 1) then scr + 1 + 1 else scr + 1)
       else scr)
      = (if ((st.selected : Int) + d).toNat < scr then ((st.selected : Int) + d).toNat
         else if !((frameOf V st).vis.contains ((st.selected : Int) + d).toNat) then
           (if st.scroll = 0 then scr + 2 else scr + 1)
         else scr) := by
    intro scr
    by_cases hlt : ((st.selected : Int) + d).toNat < scr
    · simp [hlt]
    · by_cases hmem : ((st.selected : Int) + d).toNat ∈ (frameOf V st).vis
      · simp [hlt, hmem]
      · rcases Nat.eq_zero_or_pos st.scroll with h0' | h0'
        · simp [hlt, hmem, hA, h0']
        · simp [hlt, hmem, hA, h0', Nat.pos_iff_ne_zero.mp h0']
  simp only [moveStep]
  rw [if_pos ⟨h0, h1⟩]
  split
  · rw [fetch_more]
    exact key st.scroll
  · exact key st.scroll

/-- C2: for every in-bounds `Move(d)`, the scroll adjustment is exactly:
realign to the target when it is above the window; otherwise bump by one
when the target is not in the just-computed visible set, bumping once more
exactly when `scroll` was 0 immediately before the change; otherwise leave
`scroll` unchanged. -/
theorem c2_move_scroll_adjustment (V : Nat) (d : Int) (st : MenuState)
    (h0 : 0 ≤ (st.selected : Int) + d)
    (h1 : (st.selected : Int) + d < (st.commits.length : Int)) :
    (moveStep V d st).scroll =
      (if ((st.selected : Int) + d).toNat < st.scroll then ((st.selected : Int) + d).toNat
       else if !((frameOf V st).vis.contains ((st.selected : Int) + d).toNat) then
         (if st.scroll = 0 then st.scroll + 2 else st.scroll + 1)
       else st.scroll) := by
  exact moveStep_scroll V d st h0 h1

/-- Witness for C2: with five plain items, budget 4, selection 2 and
scroll 0, moving down to index 3 (outside the visible set `[0,1,2]`)
bumps scroll by 1 plus the scroll-was-0 compensation, landing at 2. -/
theorem c2_move_scroll_adjustment_witness :
    (moveStep 4 1 (⟨["aaaaaaa a", "bbbbbbb b", "ccccccc c", "ddddddd d", "eeeeeee e"],
      [], 2, 0, [], []⟩ : MenuState)).scroll = 2 := by
  rw [c2_move_scroll_adjustment 4 1 _ (by decide) (by decide)]
  decide

/-- C7, counterexample to "Move(+1) at `selected = len - 1` triggers the
ensure-capacity page fetch": with two items, selection on the last one and
a non-exhausted source whose next entry would be appended by any fetch,
the bounds check `next < commits.len()` fails first and the whole handler
is skipped — the state, including the untouched source, is returned
unchanged, so no fetch happened. -/
theorem c7_counterexample :
    moveStep 5 1 (⟨["aaaaaaa x", "bbbbbbb y"], [some ("0123456789abcdef", "zz")],
        1, 0, [], []⟩ : MenuState)
      = (⟨["aaaaaaa x", "bbbbbbb y"], [some ("0123456789abcdef", "zz")],
        1, 0, [], []⟩ : MenuState)
    ∧ ((⟨["aaaaaaa x", "bbbbbbb y"], [some ("0123456789abcdef", "zz")],
        1, 0, [], []⟩ : MenuState)).source ≠ []
    ∧ fetchNew (((⟨["aaaaaaa x", "bbbbbbb y"], [some ("0123456789abcdef", "zz")],
        1, 0, [], []⟩ : MenuState)).source.take 5) ≠ [] := by
  decide

/-- C7 (amended): `Move(-1)` at `selected = 0` is a complete no-op, and
`Move(+1)` at `selected = len - 1` is likewise a complete no-op — the
bounds check rejects the target before any state change or fetch, so
selection never advances beyond the last index (the ensure-capacity fetch
only runs on in-bounds moves). -/
theorem c7_boundary_moves (V : Nat) (st : MenuState) :
    (st.selected = 0 → moveStep V (-1) st = st)
    ∧ (st.selected + 1 = st.commits.length → moveStep V 1 st = st) := by
  constructor
  · intro h
    simp only [moveStep]
    rw [if_neg]
    rw [h]
    omega
  · intro h
    simp only [moveStep]
    rw [if_neg]
    intro hcon
    omega

/-- Witness for C7 (amended) at concrete states: moving up from the top
and moving down from the bottom both leave the state untouched. -/
theorem c7_boundary_moves_witness :
    moveStep 3 (-1) (⟨["aaaaaaa x", "bbbbbbb y"], [], 0, 0, [], []⟩ : MenuState)
      = (⟨["aaaaaaa x", "bbbbbbb y"], [], 0, 0, [], []⟩ : MenuState)
    ∧ moveStep 3 1 (⟨["aaaaaaa x", "bbbbbbb y"], [], 1, 0, [], []⟩ : MenuState)
      = (⟨["aaaaaaa x", "bbbbbbb y"], [], 1, 0, [], []⟩ : MenuState) :=
  ⟨(c7_boundary_moves 3 _).1 (by decide), (c7_boundary_moves 3 _).2 (by decide)⟩

/-- With nothing expanded (all heights 1), the final visible set of a
frame is a nonempty run `range' scroll K` whose length `K` either reaches
the end of the list or equals the post-indicator budget `base_slots - 1`. -/
theorem frame_vis_ones (c : List String) (b : List (Nat × List String)) (s V : Nat)
    (hs : s < c.length) (hB : 2 ≤ V - (if 0 < s then 1 else 0)) :
    ∃ K, (computeFrame c [] b s V).vis = List.range' s K
      ∧ 1 ≤ K
      ∧ (K = c.length - s ∨ K = (V - (if 0 < s then 1 else 0)) - 1) := by
  obtain ⟨_, _, _, hcase⟩ := computeFrame_cases c [] b s V
  have hm1 : 1 ≤ c.length - s := by omega
  rcases hcase with ⟨hex, _, hvis⟩ | ⟨hnex, _, hvis⟩
  · obtain ⟨i, hi1, hi2⟩ := hex
    rw [collect_visible_ones] at hi1
    have hminpos : 1 ≤ min (V - (if 0 < s then 1 else 0)) (c.length - s) := by omega
    rw [getLast?_range' _ _ hminpos] at hi1
    have hieq : i = s + min (V - (if 0 < s then 1 else 0)) (c.length - s) - 1 := by
      injection hi1 with h
      omega
    have hBm : V - (if 0 < s then 1 else 0) < c.length - s := by omega
    refine ⟨V - (if 0 < s then 1 else 0) - 1, ?_, by omega, Or.inr rfl⟩
    rw [hvis, collect_visible_ones]
    congr 1
    omega
  · refine ⟨min (V - (if 0 < s then 1 else 0)) (c.length - s),
      by rw [hvis, collect_visible_ones], by omega, Or.inl ?_⟩
    by_contra hne
    have hmin : min (V - (if 0 < s then 1 else 0)) (c.length - s) < c.length - s := by omega
    have hminpos : 1 ≤ min (V - (if 0 < s then 1 else 0)) (c.length - s) := by omega
    apply hnex
    refine ⟨s + min (V - (if 0 < s then 1 else 0)) (c.length - s) - 1, ?_, by omega⟩
    rw [collect_visible_ones, getLast?_range' _ _ hminpos]

/-- C3, counterexample: from the reachable state obtained by expanding
item 0 (whose cached body has 4 lines) on a 2-item list with row budget 3,
the Move(+1) step produces `scroll = 2 > selected = 1`, breaking the
cursor invariant `scroll ≤ selected`, and the selection is not inside the
visible window of the following frame. -/
theorem c3_counterexample :
    ¬ ((moveStep 3 1 (expandStep (fun _ => some "Fix bug\n\nl1\nl2\nl3\nl4")
        (⟨["aaaaaaa x", "bbbbbbb y"], [], 0, 0, [], []⟩ : MenuState))).scroll
      ≤ (moveStep 3 1 (expandStep (fun _ => some "Fix bug\n\nl1\nl2\nl3\nl4")
        (⟨["aaaaaaa x", "bbbbbbb y"], [], 0, 0, [], []⟩ : MenuState))).selected)
    ∧ (frameOf 3 (moveStep 3 1 (expandStep (fun _ => some "Fix bug\n\nl1\nl2\nl3\nl4")
        (⟨["aaaaaaa x", "bbbbbbb y"], [], 0, 0, [], []⟩ : MenuState)))).vis.contains
        ((moveStep 3 1 (expandStep (fun _ => some "Fix bug\n\nl1\nl2\nl3\nl4")
        (⟨["aaaaaaa x", "bbbbbbb y"], [], 0, 0, [], []⟩ : MenuState))).selected) = false := by
  decide

/-- C3 (amended): every Move event preserves `selected < len(commits)`
(the list never shrinks and out-of-bounds targets are rejected); and it
preserves `scroll ≤ selected` provided no item is expanded and the row
budget is at least 3.  The original claim's unconditional invariant and
its "selected stays inside the next frame's visible window" guarantee fail
on reachable states (see the counterexample). -/
theorem c3_move_preserves_invariant (V : Nat) (d : Int) (st : MenuState) :
    (st.selected < st.commits.length →
      (moveStep V d st).selected < (moveStep V d st).commits.length)
    ∧ (st.expanded = [] → 3 ≤ V → st.scroll ≤ st.selected → st.selected < st.commits.length →
      (moveStep V d st).scroll ≤ (moveStep V d st).selected) := by
  by_cases hb : (0 ≤ (st.selected : Int) + d ∧ (st.selected : Int) + d < (st.commits.length : Int))
  · obtain ⟨h0, h1⟩ := hb
    have hsel := moveStep_selected V d st h0 h1
    have hscr := moveStep_scroll V d st h0 h1
    have hlen := moveStep_commits_ge V d st
    constructor
    · intro _
      rw [hsel]
      omega
    · intro hexp hV hs hlenlt
      rw [hsel, hscr]
      have hnlen : ((st.selected : Int) + d).toNat < st.commits.length := by omega
      by_cases hlt : ((st.selected : Int) + d).toNat < st.scroll
      · simp [hlt]
      · have hfr : (frameOf V st).vis = (computeFrame st.commits [] st.bodies st.scroll V).vis := by
          rw [frameOf, hexp]
        have hB2 : 2 ≤ V - (if 0 < st.scroll then 1 else 0) := by
          by_cases h : 0 < st.scroll <;> simp [h] <;> omega
        obtain ⟨K, hK1, hK2, hK3⟩ := frame_vis_ones st.commits st.bodies st.scroll V (by omega) hB2
        by_cases hmem : ((st.selected : Int) + d).toNat ∈ (frameOf V st).vis
        · simp [hlt, hmem]
          omega
        · have hnotmem : ¬ ((st.selected : Int) + d).toNat ∈ List.range' st.scroll K := by
            rw [← hK1, ← hfr]
            exact hmem
          have hge : st.scroll + K ≤ ((st.selected : Int) + d).toNat := by
            by_contra hcon
            push_neg at hcon
            exact hnotmem (List.mem_range'_1.mpr ⟨by omega, by omega⟩)
          rcases hK3 with hKm | hKB
          · omega
          · rcases Nat.eq_zero_or_pos st.scroll with hz | hp
            · rw [hz] at hKB
              simp at hKB
              simp [hlt, hmem, hz]
              omega
            · rw [if_pos hp] at hKB
              simp [hlt, hmem, Nat.pos_iff_ne_zero.mp hp]
              omega
  · rw [moveStep_oob V d st hb]
    exact ⟨fun h => h, fun _ _ hs _ => hs⟩

/-- Witness for C3 (amended): from five plain items, budget 4, selection 2
and scroll 0, the Move(+1) step keeps the cursor invariant. -/
theorem c3_move_preserves_invariant_witness :
    ((moveStep 4 1 (⟨["aaaaaaa a", "bbbbbbb b", "ccccccc c", "ddddddd d", "eeeeeee e"],
        [], 2, 0, [], []⟩ : MenuState)).selected
      < (moveStep 4 1 (⟨["aaaaaaa a", "bbbbbbb b", "ccccccc c", "ddddddd d", "eeeeeee e"],
        [], 2, 0, [], []⟩ : MenuState)).commits.length)
    ∧ ((moveStep 4 1 (⟨["aaaaaaa a", "bbbbbbb b", "ccccccc c", "ddddddd d", "eeeeeee e"],
        [], 2, 0, [], []⟩ : MenuState)).scroll
      ≤ (moveStep 4 1 (⟨["aaaaaaa a", "bbbbbbb b", "ccccccc c", "ddddddd d", "eeeeeee e"],
        [], 2, 0, [], []⟩ : MenuState)).selected) :=
  ⟨(c3_move_preserves_invariant 4 1 _).1 (by decide),
    (c3_move_preserves_invariant 4 1 _).2 (by decide) (by decide) (by decide) (by decide)⟩

/-! ## Expansion handlers -/

theorem lookup_cons_self (i : Nat) (v : List String) (l : List (Nat × List String)) :
    ((i, v) :: l).lookup i = some v := by
  simp [List.lookup]

theorem insertNat_contains (i : Nat) (l : List Nat) :
    (insertNat i l).contains i = true := by
  simp only [insertNat]
  split
  · next h => exact h
  · simp

theorem filter_ne_contains (i : Nat) (l : List Nat) :
    (l.filter (fun j => decide (j ≠ i))).contains i = false := by
  simp [List.contains]

theorem expandStep_expanded (f : String → Option String) (s : MenuState) :
    (expandStep f s).expanded = insertNat s.selected s.expanded := by
  simp only [expandStep]
  split
  · rfl
  · split <;> rfl

theorem expandStep_selected (f : String → Option String) (s : MenuState) :
    (expandStep f s).selected = s.selected := by
  simp only [expandStep]
  split
  · rfl
  · split <;> rfl

theorem expandStep_bodies_of_cached (f : String → Option String) (s : MenuState)
    (h : (s.bodies.lookup s.selected).isSome) :
    (expandStep f s).bodies = s.bodies := by
  simp only [expandStep]
  rw [if_pos h]

/-- C5: on first expansion (cache miss, successful git lookup) the cached
body is exactly the message's lines with the summary line dropped and then
all leading blank-after-trim lines dropped, or the `"(no description)"`
sentinel when that remainder is empty; an expanded item with a cached body
has height `1 + (number of body lines)` and an unexpanded item has
height 1. -/
theorem c5_expand_body (f : String → Option String) (st : MenuState) (msg : String)
    (h1 : st.bodies.lookup st.selected = none)
    (h2 : f (shaOf st) = some msg) :
    (expandStep f st).bodies.lookup st.selected =
      some (if (((rustLines msg).drop 1).dropWhile isBlank).isEmpty
            then ["(no description)"]
            else ((rustLines msg).drop 1).dropWhile isBlank)
    ∧ (∀ (e : List Nat) (b : List (Nat × List String)) (i : Nat) (bl : List String),
        e.contains i = true → b.lookup i = some bl → itemHeight e b i = 1 + bl.length)
    ∧ (∀ (e : List Nat) (b : List (Nat × List String)) (i : Nat),
        e.contains i = false → itemHeight e b i = 1) := by
  refine ⟨?_, ?_, ?_⟩
  · simp only [expandStep]
    rw [if_neg (by simp [h1]), h2]
    simp [deriveBody, lookup_cons_self]
  · intro e b i bl hc hl
    have hmem : i ∈ e := by simpa using hc
    simp [itemHeight, hmem, hl]
  · intro e b i hc
    have hmem : ¬ i ∈ e := by simpa using hc
    simp [itemHeight, hmem]

/-- Witness for C5 at spec Scenario C: expanding the commit whose full
message is `"Fix bug\n\nDetails line one\nDetails line two"` caches
exactly the two detail lines. -/
theorem c5_expand_body_witness :
    (expandStep (fun _ => some "Fix bug\n\nDetails line one\nDetails line two")
      (⟨["aaaaaaa Fix bug", "bbbbbbb y"], [], 0, 0, [], []⟩ : MenuState)).bodies.lookup 0
      = some ["Details line one", "Details line two"] :=
  ((c5_expand_body (fun _ => some "Fix bug\n\nDetails line one\nDetails line two")
    (⟨["aaaaaaa Fix bug", "bbbbbbb y"], [], 0, 0, [], []⟩ : MenuState)
    "Fix bug\n\nDetails line one\nDetails line two" (by decide) (by decide)).1).trans
    (by decide)

/-- C6: toggling expansion twice on one index restores that index's
expanded-membership; a toggle that fetched leaves the next toggle
fetch-free; once a body is cached, a toggle never fetches again and leaves
the cache untouched; and collapsing never touches the body cache. -/
theorem c6_toggle_idempotent (f : String → Option String) (st : MenuState) :
    ((toggleStep f (toggleStep f st).1).1.expanded.contains st.selected
        = st.expanded.contains st.selected)
    ∧ ((toggleStep f st).2 = true → (toggleStep f (toggleStep f st).1).2 = false)
    ∧ ((st.bodies.lookup st.selected).isSome →
        (toggleStep f st).2 = false ∧ (toggleStep f st).1.bodies = st.bodies)
    ∧ (collapseStep st).bodies = st.bodies := by
  by_cases hc : st.expanded.contains st.selected
  · have ht1 : toggleStep f st = (collapseStep st, false) := by
      simp only [toggleStep]
      rw [if_pos hc]
    have hsel1 : (collapseStep st).selected = st.selected := rfl
    have hcol : (collapseStep st).expanded.contains st.selected = false := by
      simp only [collapseStep]
      exact filter_ne_contains st.selected st.expanded
    have ht2 : toggleStep f (collapseStep st) = (expandStep f (collapseStep st),
        ((collapseStep st).bodies.lookup (collapseStep st).selected).isNone) := by
      simp only [toggleStep]
      rw [if_neg (by rw [hsel1, hcol]; simp)]
    refine ⟨?_, ?_, ?_, rfl⟩
    · rw [ht1, ht2, expandStep_expanded]
      have : (collapseStep st).selected = st.selected := rfl
      rw [this, insertNat_contains, hc]
    · intro h
      rw [ht1] at h
      simp at h
    · intro _
      rw [ht1]
      exact ⟨rfl, rfl⟩
  · have hcb : st.expanded.contains st.selected = false := by
      simp at hc
      simp [hc]
    have ht1 : toggleStep f st = (expandStep f st, (st.bodies.lookup st.selected).isNone) := by
      simp only [toggleStep]
      rw [if_neg (by rw [hcb]; simp)]
    have hexp : (expandStep f st).expanded.contains (expandStep f st).selected = true := by
      rw [expandStep_expanded, expandStep_selected]
      exact insertNat_contains st.selected st.expanded
    have ht2 : toggleStep f (expandStep f st) = (collapseStep (expandStep f st), false) := by
      simp only [toggleStep]
      rw [if_pos hexp]
    refine ⟨?_, ?_, ?_, rfl⟩
    · rw [ht1, ht2]
      simp only [collapseStep]
      have hsel : (expandStep f st).selected = st.selected := expandStep_selected f st
      rw [hsel, filter_ne_contains, hcb]
    · intro _
      rw [ht1, ht2]
    · intro hsome
      rw [ht1]
      constructor
      · cases hx : st.bodies.lookup st.selected
        · rw [hx] at hsome
          simp at hsome
        · simp [hx]
      · exact expandStep_bodies_of_cached f st hsome

/-- Witness for C6: with a pre-cached body at the selected index, the
toggle performs no fetch, leaves the cache unchanged, and a double toggle
restores membership. -/
theorem c6_toggle_idempotent_witness :
    ((toggleStep (fun _ => none) (⟨["aaaaaaa x"], [], 0, 0, [], [(0, ["b"])]⟩ : MenuState)).2
        = false
      ∧ (toggleStep (fun _ => none)
          (⟨["aaaaaaa x"], [], 0, 0, [], [(0, ["b"])]⟩ : MenuState)).1.bodies
        = (⟨["aaaaaaa x"], [], 0, 0, [], [(0, ["b"])]⟩ : MenuState).bodies)
    ∧ (toggleStep (fun _ => none) (toggleStep (fun _ => none)
        (⟨["aaaaaaa x"], [], 0, 0, [], [(0, ["b"])]⟩ : MenuState)).1).1.expanded.contains
        (⟨["aaaaaaa x"], [], 0, 0, [], [(0, ["b"])]⟩ : MenuState).selected
      = (⟨["aaaaaaa x"], [], 0, 0, [], [(0, ["b"])]⟩ : MenuState).expanded.contains
        (⟨["aaaaaaa x"], [], 0, 0, [], [(0, ["b"])]⟩ : MenuState).selected :=
  ⟨(c6_toggle_idempotent (fun _ => none)
      (⟨["aaaaaaa x"], [], 0, 0, [], [(0, ["b"])]⟩ : MenuState)).2.2.1 (by decide),
    (c6_toggle_idempotent (fun _ => none)
      (⟨["aaaaaaa x"], [], 0, 0, [], [(0, ["b"])]⟩ : MenuState)).1⟩

/-! ## Loop outcome, paging and commit-line format -/

/-- C8: when the loop ends with Quit the menu yields no selection and the
external fixup action is never invoked (exit status 0); when it ends with
Confirm at index `i`, `main` invokes the action with exactly the stored
line's first 7 characters (a 7-character id, given the line has at least 7
characters), and a failing action yields exit status 1 after printing a
message. -/
theorem c8_confirm_quit (V : Nat) (f : String → Option String)
    (es : List MenuEvent) (st : MenuState) (gitOk : Bool) :
    ((runMenu V f es st).1 = some none →
      (mainFinish (runMenu V f es st).2.commits none gitOk).invoked = none
      ∧ (mainFinish (runMenu V f es st).2.commits none gitOk).exitCode = 0)
    ∧ (∀ i, (runMenu V f es st).1 = some (some i) →
      7 ≤ ((runMenu V f es st).2.commits.getD i "").data.length →
      (mainFinish (runMenu V f es st).2.commits (some i) gitOk).invoked
        = some (String.mk (((runMenu V f es st).2.commits.getD i "").data.take 7))
      ∧ (String.mk (((runMenu V f es st).2.commits.getD i "").data.take 7)).data.length = 7
      ∧ (gitOk = false →
        (mainFinish (runMenu V f es st).2.commits (some i) gitOk).exitCode = 1
        ∧ ((mainFinish (runMenu V f es st).2.commits (some i) gitOk).message).isSome
          = true)) := by
  constructor
  · intro _
    exact ⟨rfl, rfl⟩
  · intro i _ hlen
    refine ⟨rfl, ?_, ?_⟩
    · show (((runMenu V f es st).2.commits.getD i "").data.take 7).length = 7
      rw [List.length_take]
      omega
    · intro hfail
      rw [hfail]
      exact ⟨rfl, rfl⟩

/-- Witness for C8: a Quit run invokes nothing, and a Confirm run on a
well-formed two-item list invokes the action with the 7-character id of
the selected line; with a failing action the exit status is 1. -/
theorem c8_confirm_quit_witness :
    ((mainFinish (runMenu 4 (fun _ => none) [MenuEvent.quit]
        (⟨["aaaaaaa x", "bbbbbbb y"], [], 1, 0, [], []⟩ : MenuState)).2.commits
        none false).invoked = none
      ∧ (mainFinish (runMenu 4 (fun _ => none) [MenuEvent.quit]
        (⟨["aaaaaaa x", "bbbbbbb y"], [], 1, 0, [], []⟩ : MenuState)).2.commits
        none false).exitCode = 0)
    ∧ (mainFinish (runMenu 4 (fun _ => none) [MenuEvent.confirm]
        (⟨["aaaaaaa x", "bbbbbbb y"], [], 1, 0, [], []⟩ : MenuState)).2.commits
        (some 1) false).invoked
      = some (String.mk (((runMenu 4 (fun _ => none) [MenuEvent.confirm]
        (⟨["aaaaaaa x", "bbbbbbb y"], [], 1, 0, [], []⟩ : MenuState)).2.commits.getD
        1 "").data.take 7))
    ∧ (mainFinish (runMenu 4 (fun _ => none) [MenuEvent.confirm]
        (⟨["aaaaaaa x", "bbbbbbb y"], [], 1, 0, [], []⟩ : MenuState)).2.commits
        (some 1) false).exitCode = 1 :=
  ⟨(c8_confirm_quit 4 (fun _ => none) [MenuEvent.quit]
      (⟨["aaaaaaa x", "bbbbbbb y"], [], 1, 0, [], []⟩ : MenuState) false).1 (by decide),
    ((c8_confirm_quit 4 (fun _ => none) [MenuEvent.confirm]
      (⟨["aaaaaaa x", "bbbbbbb y"], [], 1, 0, [], []⟩ : MenuState) false).2 1
      (by decide) (by decide)).1,
    (((c8_confirm_quit 4 (fun _ => none) [MenuEvent.confirm]
      (⟨["aaaaaaa x", "bbbbbbb y"], [], 1, 0, [], []⟩ : MenuState) false).2 1
      (by decide) (by decide)).2.2 rfl).1⟩

/-- C9: one `fetch_more` call appends at most `n` items, never shortens
the list, and leaves every previously stored element at its index
unchanged (the old list is literally the prefix of the new one). -/
theorem c9_fetch_more_monotone (n : Nat) (st : MenuState) :
    st.commits.length ≤ (fetch_more n st).commits.length
    ∧ (fetch_more n st).commits.length ≤ st.commits.length + n
    ∧ (fetch_more n st).commits.take st.commits.length = st.commits := by
  refine ⟨?_, ?_, ?_⟩
  · rw [fetch_more]
    simp
  · rw [fetch_more]
    simp only [List.length_append]
    have h1 : (fetchNew (st.source.take n)).length ≤ (st.source.take n).length :=
      List.length_filterMap_le _ _
    have h2 : (st.source.take n).length ≤ n := st.source.length_take_le n
    omega
  · rw [fetch_more]
    exact List.take_left st.commits _

/-- C10: growing the commit list preserves the line format — if the
pending source is well-formed (surviving entries carry ids of at least 7
ASCII characters) and every already-stored line has at least 8 characters
with a space at index 7 and an ASCII 7-character id, then the same holds
for every line after a `fetch_more`, so the byte slices `[..7]` and
`[8..]` taken by the renderer and the confirm/expand paths stay in bounds
and on character boundaries. -/
theorem c10_commit_format (n : Nat) (st : MenuState)
    (hsrc : sourceOk st.source = true)
    (hprev : st.commits.all goodCommit = true) :
    (fetch_more n st).commits.all goodCommit = true := by
  rw [fetch_more]
  simp only [List.all_append]
  rw [hprev]
  simp only [Bool.true_and]
  rw [List.all_eq_true]
  intro s hs
  obtain ⟨e, he, hfmt⟩ := List.mem_filterMap.mp hs
  have hesrc : e ∈ st.source := List.mem_of_mem_take he
  cases e with
  | none => simp at hfmt
  | some p =>
    have hp := (List.all_eq_true.mp hsrc) _ hesrc
    simp only [Bool.and_eq_true, decide_eq_true_eq] at hp
    obtain ⟨hlen7, hascii⟩ := hp
    simp only [Option.map_some'] at hfmt
    have hs' : s = formatCommit p.1 p.2 := by
      injection hfmt with h
      exact h.symm
    subst hs'
    have hdata : (formatCommit p.1 p.2).data = p.1.data.take 7 ++ ' ' :: p.2.data := rfl
    have htk : (p.1.data.take 7).length = 7 := by
      rw [List.length_take]
      omega
    simp only [goodCommit, Bool.and_eq_true, decide_eq_true_eq]
    refine ⟨⟨?_, ?_⟩, ?_⟩
    · rw [hdata, List.length_append, htk]
      simp
      omega
    · have hstep : (p.1.data.take 7 ++ ' ' :: p.2.data)[7]?
          = (' ' :: p.2.data)[7 - (p.1.data.take 7).length]? :=
        List.getElem?_append_right (by omega)
      rw [htk] at hstep
      rw [hdata, hstep]
      simp
    · rw [List.all_eq_true]
      intro c hc
      have : (formatCommit p.1 p.2).data.take 7 = p.1.data.take 7 := by
        rw [hdata]
        rw [List.take_append_of_le_length (by omega)]
        simp [List.take_take]
      rw [this] at hc
      have hcmem : c ∈ p.1.data := List.mem_of_mem_take hc
      exact decide_eq_true (List.all_eq_true.mp hascii c hcmem |> of_decide_eq_true)

/-- Witness for C10: fetching from a well-formed one-entry source into an
empty list yields only well-formed lines. -/
theorem c10_commit_format_witness :
    (fetch_more 1 (⟨[], [some ("0123456789abcdef0123456789abcdef01234567", "msg")],
      0, 0, [], []⟩ : MenuState)).commits.all goodCommit = true :=
  c10_commit_format 1
    (⟨[], [some ("0123456789abcdef0123456789abcdef01234567", "msg")], 0, 0, [], []⟩ : MenuState)
    (by decide) (by decide)
